import Mathlib

/-!
Verification of the ufunc execution-engine core of `numpy-refactor`
(`npy_ufunc_object.h` and companions).

The repository's visible source provides the data model (the
`NpyUFuncObject`, `NpyUFuncLoopObject` and `NpyUFuncReduceObject`
structures, the loop-method constants, and the floating-point
error-mode masks and shifts); the algorithmic bodies (broadcasting,
signature resolution, buffered dispatch, reduce/accumulate,
core-dimension binding) are declared but not present in the visible
files, so those components are modelled from the specification's
component contracts, as noted on each definition.  The error-mode
constants, masks, shifts and `UFUNC_ERR_DEFAULT2` are taken verbatim
from the source header.
-/

namespace NpyUFunc

/-! ### Shape Broadcaster

Modelled from the spec (§4.1): right-align all operand shapes; at each
aligned position take the maximum extent among the operands (an absent
leading dimension, including every position of a zero-dimensional
scalar operand, is treated as extent 1); two differing extents both
greater than 1 at the same aligned position are a mismatch and fail
with a `ShapeError` (here: `none`). -/

/-- Modelled from the spec: combination of two extents at one aligned
position of the Shape Broadcaster (the broadcasting step of
`PyArray_Broadcast` on the multi-iterator, whose body is absent from
the visible source).  Differing extents both `> 1` mismatch; otherwise
the result is the maximum of the two. -/
def combineExtent (x y : Nat) : Option Nat :=
  if x ≠ y ∧ 1 < x ∧ 1 < y then none else some (max x y)

/-- Broadcast of two shapes given in reversed (trailing-first) order,
so that right-alignment is alignment at index 0.  Positions where one
shape is exhausted combine the other shape's extent with the absent
dimension's extent 1. -/
def broadcastRev : List Nat → List Nat → Option (List Nat)
  | [], ys => some (ys.map (max 1))
  | x :: xs, [] => some ((x :: xs).map (max 1))
  | x :: xs, y :: ys =>
    match combineExtent x y, broadcastRev xs ys with
    | some e, some r => some (e :: r)
    | _, _ => none

/-- Broadcast of a list of operand shapes, all in reversed order,
folding the pairwise broadcast over the operands. -/
def broadcastAllRev : List (List Nat) → Option (List Nat)
  | [] => some []
  | [s] => some s
  | s :: t :: rest =>
    match broadcastAllRev (t :: rest) with
    | some r => broadcastRev s r
    | none => none

/-- Modelled from the spec: the Shape Broadcaster.  Takes the operand
shapes in the usual leading-first order and produces the broadcast
shape, or `none` for a `ShapeError`. -/
def broadcastShapes (shapes : List (List Nat)) : Option (List Nat) :=
  (broadcastAllRev (shapes.map List.reverse)).map List.reverse

/-- The extent of a (reversed) shape at aligned position `p`, an absent
leading dimension being treated as extent 1. -/
def extAt (s : List Nat) (p : Nat) : Nat :=
  s.getD p 1

/-- The extent of a shape (leading-first order) at aligned position `p`
counted from the trailing end. -/
def alignedExt (s : List Nat) (p : Nat) : Nat :=
  extAt s.reverse p

theorem extAt_nil (p : Nat) : extAt [] p = 1 := by
  cases p <;> rfl

theorem extAt_cons_zero (x : Nat) (xs : List Nat) : extAt (x :: xs) 0 = x := rfl

theorem extAt_cons_succ (x : Nat) (xs : List Nat) (p : Nat) :
    extAt (x :: xs) (p + 1) = extAt xs p := rfl

theorem extAt_map_max_one (ys : List Nat) (p : Nat) :
    extAt (ys.map (max 1)) p = max 1 (extAt ys p) := by
  induction ys generalizing p with
  | nil => simp [extAt_nil]
  | cons y ys ih =>
    cases p with
    | zero => rfl
    | succ p => simpa [extAt_cons_succ] using ih p

theorem combineExtent_eq_none_iff (x y : Nat) :
    combineExtent x y = none ↔ x ≠ y ∧ 1 < x ∧ 1 < y := by
  unfold combineExtent
  split <;> simp_all

theorem combineExtent_eq_some (x y e : Nat) (h : combineExtent x y = some e) :
    e = max x y := by
  unfold combineExtent at h
  split at h
  · exact absurd h (by simp)
  · exact (Option.some_inj.mp h).symm

/-- On success, the pairwise broadcast is the pointwise maximum of the
aligned extents. -/
theorem broadcastRev_some_ext (xs ys r : List Nat)
    (h : broadcastRev xs ys = some r) (p : Nat) :
    extAt r p = max (extAt xs p) (extAt ys p) := by
  induction xs generalizing ys r p with
  | nil =>
    simp only [broadcastRev] at h
    cases h
    rw [extAt_map_max_one, extAt_nil]
  | cons x xs ih =>
    cases ys with
    | nil =>
      simp only [broadcastRev] at h
      cases h
      rw [extAt_map_max_one, extAt_nil, Nat.max_comm]
    | cons y ys =>
      simp only [broadcastRev] at h
      cases hc : combineExtent x y with
      | none => rw [hc] at h; exact absurd h (by simp)
      | some e =>
        rw [hc] at h
        cases hr : broadcastRev xs ys with
        | none => rw [hr] at h; exact absurd h (by simp)
        | some r' =>
          rw [hr] at h
          cases h
          cases p with
          | zero =>
            simp only [extAt_cons_zero]
            exact combineExtent_eq_some x y e hc
          | succ p =>
            simp only [extAt_cons_succ]
            exact ih ys r' hr p

/-- The pairwise broadcast fails exactly when some aligned position has
differing extents both greater than 1. -/
theorem broadcastRev_none_iff (xs ys : List Nat) :
    broadcastRev xs ys = none ↔
      ∃ p, extAt xs p ≠ extAt ys p ∧ 1 < extAt xs p ∧ 1 < extAt ys p := by
  induction xs generalizing ys with
  | nil =>
    simp only [broadcastRev]
    constructor
    · intro h; exact absurd h (by simp)
    · rintro ⟨p, hne, hx, _⟩
      rw [extAt_nil] at hx
      omega
  | cons x xs ih =>
    cases ys with
    | nil =>
      simp only [broadcastRev]
      constructor
      · intro h; exact absurd h (by simp)
      · rintro ⟨p, hne, _, hy⟩
        rw [extAt_nil] at hy
        omega
    | cons y ys =>
      simp only [broadcastRev]
      constructor
      · intro h
        cases hc : combineExtent x y with
        | none =>
          refine ⟨0, ?_⟩
          simp only [extAt_cons_zero]
          exact (combineExtent_eq_none_iff x y).mp hc
        | some e =>
          rw [hc] at h
          cases hr : broadcastRev xs ys with
          | some r' => rw [hr] at h; exact absurd h (by simp)
          | none =>
            obtain ⟨p, hp⟩ := (ih ys).mp hr
            exact ⟨p + 1, by simpa [extAt_cons_succ] using hp⟩
      · rintro ⟨p, hne, hx, hy⟩
        cases p with
        | zero =>
          simp only [extAt_cons_zero] at hne hx hy
          rw [(combineExtent_eq_none_iff x y).mpr ⟨hne, hx, hy⟩]
        | succ p =>
          simp only [extAt_cons_succ] at hne hx hy
          rw [(ih ys).mpr ⟨p, hne, hx, hy⟩]
          cases combineExtent x y <;> rfl

/-- The maximum aligned extent at position `p` over a list of reversed
shapes, an absent dimension contributing extent 1 (so positions beyond
every shape get 1 for a nonempty operand list, via `max` with the
shorter shapes' contribution). -/
def specMaxExt (ss : List (List Nat)) (p : Nat) : Nat :=
  (ss.map (fun s => extAt s p)).foldr max 0

theorem foldr_max_zero_mem (l : List Nat) :
    l.foldr max 0 = 0 ∨ l.foldr max 0 ∈ l := by
  induction l with
  | nil => exact Or.inl rfl
  | cons x l ih =>
    rcases max_choice x (l.foldr max 0) with h | h
    · exact Or.inr (by rw [List.foldr_cons, h]; exact List.mem_cons_self x l)
    · rcases ih with h0 | hm
      · rw [List.foldr_cons, h, h0]
        rcases Nat.eq_zero_or_pos x with hx | hx
        · exact Or.inl (by omega)
        · exact Or.inr (by simp; omega)
      · exact Or.inr (by rw [List.foldr_cons, h]; exact List.mem_cons_of_mem x hm)

theorem le_foldr_max (l : List Nat) (x : Nat) (h : x ∈ l) :
    x ≤ l.foldr max 0 := by
  induction l with
  | nil => cases h
  | cons y l ih =>
    rcases List.mem_cons.mp h with rfl | hm
    · exact le_max_left _ _
    · exact le_trans (ih hm) (le_max_right _ _)

theorem specMaxExt_attained (ss : List (List Nat)) (p : Nat)
    (h : 1 ≤ specMaxExt ss p) : ∃ s ∈ ss, extAt s p = specMaxExt ss p := by
  rcases foldr_max_zero_mem (ss.map (fun s => extAt s p)) with h0 | hm
  · unfold specMaxExt at h
    omega
  · obtain ⟨s, hs, he⟩ := List.mem_map.mp hm
    exact ⟨s, hs, he⟩

theorem specMaxExt_ge (ss : List (List Nat)) (p : Nat) (s : List Nat)
    (h : s ∈ ss) : extAt s p ≤ specMaxExt ss p :=
  le_foldr_max _ _ (List.mem_map.mpr ⟨s, h, rfl⟩)

/-- On success, the N-ary broadcast is the pointwise maximum of the
operands' aligned extents. -/
theorem broadcastAllRev_some_ext (ss : List (List Nat)) (r : List Nat)
    (hne : ss ≠ []) (h : broadcastAllRev ss = some r) (p : Nat) :
    extAt r p = specMaxExt ss p := by
  induction ss generalizing r with
  | nil => exact absurd rfl hne
  | cons s rest ih =>
    cases rest with
    | nil =>
      simp only [broadcastAllRev] at h
      cases h
      simp [specMaxExt]
    | cons t rest' =>
      simp only [broadcastAllRev] at h
      cases hr : broadcastAllRev (t :: rest') with
      | none => rw [hr] at h; exact absurd h (by simp)
      | some r' =>
        rw [hr] at h
        have hext := broadcastRev_some_ext s r' r h p
        rw [hext, ih r' (by simp) hr]
        simp [specMaxExt]

/-- On success, the length of the N-ary broadcast result is the maximum
of the operand ranks. -/
theorem broadcastRev_some_length (xs ys r : List Nat)
    (h : broadcastRev xs ys = some r) :
    r.length = max xs.length ys.length := by
  induction xs generalizing ys r with
  | nil =>
    simp only [broadcastRev] at h
    cases h
    simp
  | cons x xs ih =>
    cases ys with
    | nil =>
      simp only [broadcastRev] at h
      cases h
      simp
    | cons y ys =>
      simp only [broadcastRev] at h
      cases hc : combineExtent x y with
      | none => rw [hc] at h; exact absurd h (by simp)
      | some e =>
        rw [hc] at h
        cases hr : broadcastRev xs ys with
        | none => rw [hr] at h; exact absurd h (by simp)
        | some r' =>
          rw [hr] at h
          cases h
          have := ih ys r' hr
          simp only [List.length_cons, this]
          omega

theorem broadcastAllRev_some_length (ss : List (List Nat)) (r : List Nat)
    (h : broadcastAllRev ss = some r) :
    r.length = (ss.map List.length).foldr max 0 := by
  induction ss generalizing r with
  | nil =>
    simp only [broadcastAllRev] at h
    cases h
    rfl
  | cons s rest ih =>
    cases rest with
    | nil =>
      simp only [broadcastAllRev] at h
      cases h
      simp
    | cons t rest' =>
      simp only [broadcastAllRev] at h
      cases hr : broadcastAllRev (t :: rest') with
      | none => rw [hr] at h; exact absurd h (by simp)
      | some r' =>
        rw [hr] at h
        rw [broadcastRev_some_length s r' r h, ih r' hr]
        simp

/-- The N-ary broadcast fails exactly when two operands have differing
extents both greater than 1 at the same aligned position. -/
theorem broadcastAllRev_none_iff (ss : List (List Nat)) :
    broadcastAllRev ss = none ↔
      ∃ s ∈ ss, ∃ t ∈ ss, ∃ p,
        extAt s p ≠ extAt t p ∧ 1 < extAt s p ∧ 1 < extAt t p := by
  induction ss with
  | nil =>
    simp only [broadcastAllRev]
    constructor
    · intro h; exact absurd h (by simp)
    · rintro ⟨s, hs, -⟩; cases hs
  | cons s rest ih =>
    cases rest with
    | nil =>
      simp only [broadcastAllRev]
      constructor
      · intro h; exact absurd h (by simp)
      · rintro ⟨a, ha, b, hb, p, hne, -, -⟩
        rcases List.mem_singleton.mp ha with rfl
        rcases List.mem_singleton.mp hb with rfl
        exact (hne rfl).elim
    | cons t rest' =>
      simp only [broadcastAllRev]
      cases hr : broadcastAllRev (t :: rest') with
      | none =>
        constructor
        · intro _
          obtain ⟨a, ha, b, hb, hp⟩ := ih.mp hr
          exact ⟨a, List.mem_cons_of_mem s ha, b, List.mem_cons_of_mem s hb, hp⟩
        · intro _; rfl
      | some r' =>
        have hres : ∀ p, extAt r' p = specMaxExt (t :: rest') p :=
          broadcastAllRev_some_ext (t :: rest') r' (by simp) hr

        constructor
        · intro h
          obtain ⟨p, hne, hs, hr'⟩ := (broadcastRev_none_iff s r').mp h
          rw [hres p] at hne hr'
          obtain ⟨u, hu, hue⟩ := specMaxExt_attained (t :: rest') p (by omega)
          refine ⟨s, List.mem_cons_self s _, u, List.mem_cons_of_mem s hu, p, ?_, hs, ?_⟩
          · rw [hue]; exact hne
          · rw [hue]; exact hr'
        · rintro ⟨a, ha, b, hb, p, hne, hagt, hbgt⟩
          rcases List.mem_cons.mp ha with rfl | hatl
          · rcases List.mem_cons.mp hb with rfl | hbtl
            · exact (hne rfl).elim
            · -- a is the head, b is in the tail
              have hble : extAt b p ≤ specMaxExt (t :: rest') p :=
                specMaxExt_ge (t :: rest') p b hbtl
              by_cases heq : extAt a p = specMaxExt (t :: rest') p
              · -- the max is attained by some tail operand conflicting with b
                obtain ⟨u, hu, hue⟩ :=
                  specMaxExt_attained (t :: rest') p (by omega)
                have hc : broadcastAllRev (t :: rest') = none :=
                  ih.mpr ⟨u, hu, b, hbtl, p, by rw [hue, ← heq]; exact hne,
                    by rw [hue, ← heq]; exact hagt, hbgt⟩
                rw [hr] at hc
                exact absurd hc (by simp)
              · show broadcastRev a r' = none
                exact (broadcastRev_none_iff a r').mpr
                  ⟨p, by rw [hres p]; exact heq, hagt, by rw [hres p]; omega⟩
          · rcases List.mem_cons.mp hb with rfl | hbtl
            · -- b is the head, a is in the tail: symmetric
              have hale : extAt a p ≤ specMaxExt (t :: rest') p :=
                specMaxExt_ge (t :: rest') p a hatl
              by_cases hbq : extAt b p = specMaxExt (t :: rest') p
              · obtain ⟨u, hu, hue⟩ :=
                  specMaxExt_attained (t :: rest') p (by omega)
                have hc : broadcastAllRev (t :: rest') = none :=
                  ih.mpr ⟨u, hu, a, hatl, p, by rw [hue, ← hbq]; exact fun h => hne h.symm,
                    by rw [hue, ← hbq]; exact hbgt, hagt⟩
                rw [hr] at hc
                exact absurd hc (by simp)
              · show broadcastRev b r' = none
                exact (broadcastRev_none_iff b r').mpr
                  ⟨p, by rw [hres p]; exact hbq, hbgt, by rw [hres p]; omega⟩
            · -- both in the tail
              have hc : broadcastAllRev (t :: rest') = none :=
                ih.mpr ⟨a, hatl, b, hbtl, p, hne, hagt, hbgt⟩
              rw [hr] at hc
              exact absurd hc (by simp)

theorem broadcastShapes_eq_some_iff (shapes : List (List Nat)) (r : List Nat) :
    broadcastShapes shapes = some r ↔
      broadcastAllRev (shapes.map List.reverse) = some r.reverse := by
  unfold broadcastShapes
  constructor
  · intro h
    obtain ⟨a, ha, hrev⟩ := Option.map_eq_some'.mp h
    rw [ha, ← hrev, List.reverse_reverse]
  · intro h
    rw [h]
    simp

theorem broadcastShapes_eq_none_iff (shapes : List (List Nat)) :
    broadcastShapes shapes = none ↔
      broadcastAllRev (shapes.map List.reverse) = none := by
  unfold broadcastShapes
  exact Option.map_eq_none'

/-- C1: the Shape Broadcaster right-aligns the operand shapes and, on
success, returns at every aligned position the maximum extent (absent
leading dimensions counting as 1) with the result's rank the maximum
operand rank; it fails with a `ShapeError` exactly when two operands
have differing extents both greater than 1 at the same aligned
position; and a zero-dimensional (scalar) operand broadcasts against
any shapes without affecting success. -/
theorem C1_shape_broadcaster (shapes : List (List Nat)) :
    (∀ r, broadcastShapes shapes = some r → shapes ≠ [] →
      (∀ p, alignedExt r p = (shapes.map (fun s => alignedExt s p)).foldr max 0) ∧
      r.length = (shapes.map List.length).foldr max 0) ∧
    (broadcastShapes shapes = none ↔
      ∃ s ∈ shapes, ∃ t ∈ shapes, ∃ p,
        alignedExt s p ≠ alignedExt t p ∧
        1 < alignedExt s p ∧ 1 < alignedExt t p) ∧
    ((broadcastShapes ([] :: shapes)).isSome ↔ (broadcastShapes shapes).isSome) := by
  have hext : ∀ p, specMaxExt (shapes.map List.reverse) p =
      (shapes.map (fun s => alignedExt s p)).foldr max 0 := by
    intro p
    unfold specMaxExt alignedExt
    rw [List.map_map]
    rfl
  refine ⟨?_, ?_, ?_⟩
  · intro r h hne
    have h' := (broadcastShapes_eq_some_iff shapes r).mp h
    constructor
    · intro p
      have hm : shapes.map List.reverse ≠ [] := by
        intro hmap
        exact hne (List.map_eq_nil_iff.mp hmap)
      have := broadcastAllRev_some_ext (shapes.map List.reverse) r.reverse hm h' p
      unfold alignedExt
      rw [this, hext p]
      rfl
    · have := broadcastAllRev_some_length (shapes.map List.reverse) r.reverse h'
      rw [List.length_reverse] at this
      rw [this, List.map_map]
      congr 1
      apply List.map_congr_left
      intro s _
      exact List.length_reverse s
  · rw [broadcastShapes_eq_none_iff,
      broadcastAllRev_none_iff (shapes.map List.reverse)]
    constructor
    · rintro ⟨s', hs', t', ht', p, h1, h2, h3⟩
      obtain ⟨s, hs, rfl⟩ := List.mem_map.mp hs'
      obtain ⟨t, ht, rfl⟩ := List.mem_map.mp ht'
      exact ⟨s, hs, t, ht, p, h1, h2, h3⟩
    · rintro ⟨s, hs, t, ht, p, h1, h2, h3⟩
      exact ⟨s.reverse, List.mem_map.mpr ⟨s, hs, rfl⟩,
             t.reverse, List.mem_map.mpr ⟨t, ht, rfl⟩, p, h1, h2, h3⟩
  · rw [← Option.ne_none_iff_isSome, ← Option.ne_none_iff_isSome,
      not_iff_not, broadcastShapes_eq_none_iff, broadcastShapes_eq_none_iff]
    rw [broadcastAllRev_none_iff, broadcastAllRev_none_iff]
    simp only [List.map_cons, List.reverse_nil]
    constructor
    · rintro ⟨s', hs', t', ht', p, h1, h2, h3⟩
      rcases List.mem_cons.mp hs' with rfl | hs'
      · rw [extAt_nil] at h2; omega
      · rcases List.mem_cons.mp ht' with rfl | ht'
        · rw [extAt_nil] at h3; omega
        · exact ⟨s', hs', t', ht', p, h1, h2, h3⟩
    · rintro ⟨s', hs', t', ht', p, h1, h2, h3⟩
      exact ⟨s', List.mem_cons_of_mem [] hs', t', List.mem_cons_of_mem [] ht',
             p, h1, h2, h3⟩

/-- Witness for C1 at the spec's example shapes `(2,3)` and `(3,)`. -/
theorem C1_shape_broadcaster_witness :
    alignedExt [2, 3] 0 =
      ([[2, 3], [3]].map (fun s => alignedExt s 0)).foldr max 0 ∧
    ([2, 3] : List Nat).length = ([[2, 3], [3]].map List.length).foldr max 0 :=
  ⟨((C1_shape_broadcaster [[2, 3], [3]]).1 [2, 3] rfl (by decide)).1 0,
   ((C1_shape_broadcaster [[2, 3], [3]]).1 [2, 3] rfl (by decide)).2⟩

/-! ### Signature Resolver

Modelled from the spec (§4.3): the `NpyUFuncObject` stores the ordered
registration table (`types`, `functions`, `data`, `ntypes`, and the
user-loop table); the resolution routine itself is absent from the
visible source.  Resolution is a linear scan in registration order for
the first signature whose input types are all reachable from the
actual operand types via the casting relation. -/

/-- One registered inner-loop signature of a ufunc: the input type
codes, the output type codes, and the index of the loop function in
`functions` / `data`. -/
structure UFuncSig where
  intypes : List Nat
  outtypes : List Nat
  loopIdx : Nat
deriving DecidableEq

/-- Whether a registered signature is reachable from the actual
operand input type codes: same arity, and each operand type castable
to the corresponding declared input type under `canCast`. -/
def sigMatches (canCast : Nat → Nat → Bool) (ops : List Nat) (sig : UFuncSig) : Bool :=
  (sig.intypes.length == ops.length) &&
    (List.zip ops sig.intypes).all (fun q => canCast q.1 q.2)

/-- Modelled from the spec: signature resolution (the
`select_types`-style routine, absent from the visible source).  Scans
the registered signatures in registration order and returns the first
reachable one; if none is reachable, fails with a
`TypeResolutionError` carrying the attempted operand types. -/
def resolveSignature (canCast : Nat → Nat → Bool) (ops : List Nat) :
    List UFuncSig → Except (List Nat) UFuncSig
  | [] => .error ops
  | sig :: rest =>
    if sigMatches canCast ops sig then .ok sig
    else resolveSignature canCast ops rest

theorem resolveSignature_ok_iff (canCast : Nat → Nat → Bool) (ops : List Nat)
    (sigs : List UFuncSig) (sig : UFuncSig) :
    resolveSignature canCast ops sigs = .ok sig ↔
      ∃ i : Nat, sigs[i]? = some sig ∧ sigMatches canCast ops sig = true ∧
        ∀ j, j < i → ∀ t, sigs[j]? = some t →
          sigMatches canCast ops t = false := by
  induction sigs with
  | nil =>
    simp only [resolveSignature]
    constructor
    · intro h; exact absurd h (by simp)
    · rintro ⟨i, hi, -⟩
      rw [List.getElem?_nil] at hi
      exact absurd hi (by simp)
  | cons s rest ih =>
    simp only [resolveSignature]
    by_cases hm : sigMatches canCast ops s = true
    · rw [if_pos hm]
      constructor
      · intro h
        have hss : s = sig := by
          injection h
        subst hss
        exact ⟨0, by simp, hm, fun j hj => absurd hj (Nat.not_lt_zero j)⟩
      · rintro ⟨i, hi, hmatch, hfirst⟩
        cases i with
        | zero =>
          rw [List.getElem?_cons_zero] at hi
          rw [Option.some_inj.mp hi]
        | succ i' =>
          have := hfirst 0 (Nat.succ_pos i') s (by simp)
          rw [hm] at this
          exact absurd this (by simp)
    · rw [if_neg hm, ih]
      constructor
      · rintro ⟨i, hi, hmatch, hfirst⟩
        refine ⟨i + 1, by simpa using hi, hmatch, ?_⟩
        intro j hj t ht
        cases j with
        | zero =>
          rw [List.getElem?_cons_zero] at ht
          rw [← Option.some_inj.mp ht]
          exact Bool.eq_false_iff.mpr hm
        | succ j' =>
          exact hfirst j' (by omega) t (by simpa using ht)
      · rintro ⟨i, hi, hmatch, hfirst⟩
        cases i with
        | zero =>
          rw [List.getElem?_cons_zero] at hi
          rw [← Option.some_inj.mp hi] at hmatch
          exact absurd hmatch hm
        | succ i' =>
          exact ⟨i', by simpa using hi, hmatch,
            fun j hj t ht => hfirst (j + 1) (by omega) t (by simpa using ht)⟩

theorem resolveSignature_error_iff (canCast : Nat → Nat → Bool) (ops : List Nat)
    (sigs : List UFuncSig) (e : List Nat) :
    resolveSignature canCast ops sigs = .error e ↔
      e = ops ∧ ∀ s ∈ sigs, sigMatches canCast ops s = false := by
  induction sigs with
  | nil =>
    simp only [resolveSignature]
    constructor
    · intro h
      injection h with h'
      exact ⟨h'.symm, fun s hs => absurd hs (List.not_mem_nil s)⟩
    · rintro ⟨rfl, -⟩; rfl
  | cons s rest ih =>
    simp only [resolveSignature]
    by_cases hm : sigMatches canCast ops s = true
    · rw [if_pos hm]
      constructor
      · intro h; exact absurd h (by simp)
      · rintro ⟨-, hall⟩
        have := hall s (List.mem_cons_self s rest)
        rw [hm] at this
        exact absurd this (by simp)
    · rw [if_neg hm, ih]
      constructor
      · rintro ⟨rfl, hall⟩
        refine ⟨rfl, ?_⟩
        intro t ht
        rcases List.mem_cons.mp ht with rfl | htl
        · exact Bool.eq_false_iff.mpr hm
        · exact hall t htl
      · rintro ⟨rfl, hall⟩
        exact ⟨rfl, fun t ht => hall t (List.mem_cons_of_mem s ht)⟩

/-- C2: signature resolution is a linear scan in registration order:
it returns a signature exactly when that signature is reachable from
the operand types by the casting relation and every
earlier-registered signature is unreachable (first reachable match
wins, independent of any notion of closeness), and it fails exactly
when no registered signature is reachable, with the error carrying
the attempted operand types.  Resolution is a pure function of the
casting relation, the registration table and the operand types, so
repeated calls with the same types return the same result. -/
theorem C2_signature_resolution (canCast : Nat → Nat → Bool) (ops : List Nat)
    (sigs : List UFuncSig) (sig : UFuncSig) (e : List Nat) :
    (resolveSignature canCast ops sigs = .ok sig ↔
      ∃ i : Nat, sigs[i]? = some sig ∧ sigMatches canCast ops sig = true ∧
        ∀ j, j < i → ∀ t, sigs[j]? = some t →
          sigMatches canCast ops t = false) ∧
    (resolveSignature canCast ops sigs = .error e ↔
      e = ops ∧ ∀ s ∈ sigs, sigMatches canCast ops s = false) :=
  ⟨resolveSignature_ok_iff canCast ops sigs sig,
   resolveSignature_error_iff canCast ops sigs e⟩

/-! ### Buffer Manager and Loop Dispatcher

Modelled from the spec (§4.4/§4.5): the `NpyUFuncLoopObject` holds the
chunk bookkeeping (`bufsize`, `bufcnt`, `leftover`, `ninnerloops`, the
per-operand `needbuffer`/`swap`/`cast` staging state); the buffered
walk itself is absent from the visible source.  An innermost run of
`N` elements is processed in chunks of up to `cap = bufsize/elemsize`
elements; staged operands are copied through the cast (or swap) into
the scratch buffer before the chunk and flushed back after it. -/

/-- Modelled from the spec: the Dispatcher's split of an innermost run
into chunks of up to `cap` elements, the final chunk holding the
leftover elements. -/
def chunked (cap : Nat) : List α → List (List α)
  | [] => []
  | x :: xs => (x :: xs.take (cap - 1)) :: chunked cap (xs.drop (cap - 1))
termination_by l => l.length
decreasing_by
  simp only [List.length_drop, List.length_cons]
  omega

theorem chunked_nil (cap : Nat) : chunked cap ([] : List α) = [] := by
  simp [chunked]

theorem chunked_cons (cap : Nat) (x : α) (xs : List α) :
    chunked cap (x :: xs) =
      (x :: xs.take (cap - 1)) :: chunked cap (xs.drop (cap - 1)) := by
  simp [chunked]

theorem chunked_eq_nil_iff (cap : Nat) (xs : List α) :
    chunked cap xs = [] ↔ xs = [] := by
  cases xs with
  | nil => simp [chunked_nil]
  | cons x xs => simp [chunked_cons]

/-- Flushing every chunk in order reproduces the run exactly: no
element is skipped, duplicated, or taken from outside the operand. -/
theorem chunked_flatten (cap : Nat) (xs : List α) :
    (chunked cap xs).flatten = xs := by
  induction xs using chunked.induct cap with
  | case1 => simp [chunked_nil]
  | case2 x xs ih =>
    rw [chunked_cons, List.flatten_cons, ih]
    simp [List.take_append_drop]

/-- Every chunk fits in the scratch buffer: at most `cap` elements. -/
theorem chunked_length_le (cap : Nat) (hcap : 0 < cap) (xs : List α) :
    ∀ c ∈ chunked cap xs, c.length ≤ cap := by
  induction xs using chunked.induct cap with
  | case1 => simp [chunked_nil]
  | case2 x xs ih =>
    rw [chunked_cons]
    intro c hc
    rcases List.mem_cons.mp hc with rfl | hm
    · simp
      omega
    · exact ih c hm

/-- Chunk `k` is exactly the slice of the run starting at element
`k * cap`. -/
theorem chunked_getElem? (cap : Nat) (hcap : 0 < cap) (xs : List α) (k : Nat) :
    (chunked cap xs)[k]? =
      if xs.length ≤ k * cap then none
      else some ((xs.drop (k * cap)).take cap) := by
  obtain ⟨c, rfl⟩ : ∃ c, cap = c + 1 := ⟨cap - 1, by omega⟩
  induction k generalizing xs with
  | zero =>
    cases xs with
    | nil => simp [chunked_nil]
    | cons x xs =>
      rw [chunked_cons]
      simp only [Nat.zero_mul, List.drop_zero, List.getElem?_cons_zero]
      rw [if_neg (by simp)]
      simp
  | succ k ih =>
    cases xs with
    | nil => simp [chunked_nil]
    | cons x xs =>
      rw [chunked_cons, List.getElem?_cons_succ, ih (xs.drop ((c + 1) - 1))]
      have hc1 : (c + 1) - 1 = c := rfl
      rw [hc1]
      obtain ⟨K, hK⟩ : ∃ K, K = k * (c + 1) := ⟨k * (c + 1), rfl⟩
      have hmul : (k + 1) * (c + 1) = K + c + 1 := by rw [hK]; ring
      have hdrop : (xs.drop c).drop (k * (c + 1)) = (x :: xs).drop ((k + 1) * (c + 1)) := by
        rw [List.drop_drop, ← hK, hmul]
        have harg : K + c + 1 = (K + c) + 1 := rfl
        rw [harg, List.drop_succ_cons]
        congr 1
        omega
      have hlen : (xs.drop c).length = xs.length - c := by simp
      rw [hdrop, hlen, ← hK, hmul]
      by_cases hcnd : xs.length - c ≤ K
      · rw [if_pos hcnd, if_pos (by simp only [List.length_cons]; omega)]
      · rw [if_neg hcnd, if_neg (by simp only [List.length_cons]; omega)]

/-- The final chunk of a run whose length is not a multiple of the
chunk capacity holds exactly the leftover `length % cap` elements. -/
theorem getLast?_cons_of_ne (a : α) (l : List α) (h : l ≠ []) :
    (a :: l).getLast? = l.getLast? := by
  cases l with
  | nil => exact absurd rfl h
  | cons b m => exact List.getLast?_cons_cons

theorem chunked_getLast_leftover (cap : Nat) (hcap : 0 < cap) (xs : List α) :
    xs.length % cap ≠ 0 →
    (chunked cap xs).getLast?.map List.length = some (xs.length % cap) := by
  induction xs using chunked.induct cap with
  | case1 =>
    intro hmod
    simp at hmod
  | case2 x xs ih =>
    intro hmod
    rw [chunked_cons]
    by_cases hrest : xs.drop (cap - 1) = []
    · rw [hrest, chunked_nil]
      have hlen : xs.length ≤ cap - 1 := by
        have := congrArg List.length hrest
        simp at this
        omega
      have hlt : (x :: xs).length < cap ∨ (x :: xs).length = cap := by
        simp
        omega
      rcases hlt with hlt | heq
      · rw [Nat.mod_eq_of_lt hlt]
        simp
        omega
      · rw [heq] at hmod
        rw [Nat.mod_self] at hmod
        exact absurd rfl hmod
    · have hne : chunked cap (xs.drop (cap - 1)) ≠ [] := by
        rw [ne_eq, chunked_eq_nil_iff]
        exact hrest
      have hdlen : xs.length > cap - 1 := by
        by_contra hcon
        exact hrest (List.drop_eq_nil_of_le (by omega))
      have hmodeq : (xs.drop (cap - 1)).length % cap = (x :: xs).length % cap := by
        have hlen : (xs.drop (cap - 1)).length = (x :: xs).length - cap := by
          simp
          omega
        rw [hlen]
        have hsplit : (x :: xs).length = cap + ((x :: xs).length - cap) := by
          simp
          omega
        conv_rhs => rw [hsplit]
        rw [Nat.add_mod_left]
      rw [getLast?_cons_of_ne _ _ hne, ih (by rw [hmodeq]; exact hmod), hmodeq]

/-- C4: with a positive chunk capacity `cap = bufsize/elemsize`, every
chunk of a buffered run holds at most `cap` elements, the chunks
together reproduce the run exactly (so no buffer fill or copy-back
touches memory outside the operand), each element of chunk `k` is the
operand element at in-bounds offset `k * cap + i`, and when the run
length is not a multiple of `cap` the final chunk holds exactly the
leftover `length % cap` elements. -/
theorem C4_chunk_sizing (cap : Nat) (xs : List Int) (hcap : 0 < cap) :
    (∀ c ∈ chunked cap xs, c.length ≤ cap) ∧
    ((chunked cap xs).flatten = xs) ∧
    (∀ k : Nat, ∀ ch, (chunked cap xs)[k]? = some ch →
      ∀ i : Nat, i < ch.length → k * cap + i < xs.length ∧
        ch[i]? = xs[k * cap + i]?) ∧
    (xs.length % cap ≠ 0 →
      (chunked cap xs).getLast?.map List.length = some (xs.length % cap)) := by
  refine ⟨chunked_length_le cap hcap xs, chunked_flatten cap xs, ?_,
    chunked_getLast_leftover cap hcap xs⟩
  intro k ch hc i hi
  rw [chunked_getElem? cap hcap xs k] at hc
  by_cases hcond : xs.length ≤ k * cap
  · rw [if_pos hcond] at hc
    exact absurd hc (by simp)
  · rw [if_neg hcond] at hc
    have hceq : ch = (xs.drop (k * cap)).take cap := (Option.some_inj.mp hc).symm
    subst hceq
    have hilt : i < xs.length - k * cap := by
      have := hi
      simp only [List.length_take, List.length_drop] at this
      omega
    constructor
    · omega
    · have hicap : i < cap := by
        simp only [List.length_take, List.length_drop] at hi
        omega
      rw [List.getElem?_take, if_pos hicap, List.getElem?_drop]

/-- Modelled from the spec: the direct (zero-copy) execution of a
one-input elementwise inner loop over an innermost run. -/
def directRun (f : α → β) (xs : List α) : List β :=
  xs.map f

/-- Modelled from the spec: the buffered execution of the same loop:
the run is cut into chunks of at most `cap` elements; each chunk is
staged into the scratch buffer through `stageIn` (the resolved cast,
byte swap, or alignment copy), the inner loop runs on the buffer, and
the chunk's outputs are flushed back through `stageOut`. -/
def bufferedRun (f : α → β) (cap : Nat) (stageIn : α → α) (stageOut : β → β)
    (xs : List α) : List β :=
  ((chunked cap xs).map (fun c => ((c.map stageIn).map f).map stageOut)).flatten

/-- C3: staging an operand through the buffered path with
value-preserving staging (the identity cast used for forced
misalignment, byte swap to native order, or an alignment copy)
produces exactly the same outputs as the direct zero-copy path. -/
theorem C3_buffered_matches_direct (f : α → β) (cap : Nat)
    (stageIn : α → α) (stageOut : β → β)
    (hin : ∀ x, stageIn x = x) (hout : ∀ y, stageOut y = y) (xs : List α) :
    bufferedRun f cap stageIn stageOut xs = directRun f xs := by
  unfold bufferedRun directRun
  have hid_in : ∀ c : List α, c.map stageIn = c := by
    intro c
    have h : ∀ x ∈ c, stageIn x = id x := fun x _ => hin x
    rw [List.map_congr_left h, List.map_id]
  have hid_out : ∀ l : List β, l.map stageOut = l := by
    intro l
    have h : ∀ y ∈ l, stageOut y = id y := fun y _ => hout y
    rw [List.map_congr_left h, List.map_id]
  have hstage : ∀ c : List α, ((c.map stageIn).map f).map stageOut = c.map f := by
    intro c
    rw [hid_in c, hid_out (c.map f)]
  rw [List.map_congr_left (fun c _ => hstage c)]
  calc ((chunked cap xs).map (fun c => c.map f)).flatten
      = ((chunked cap xs).flatten).map f := (List.map_flatten f (chunked cap xs)).symm
    _ = xs.map f := by rw [chunked_flatten]

/-- Witness for C3 on a three-element run with chunk capacity 2. -/
theorem C3_buffered_matches_direct_witness :
    bufferedRun (fun x : Nat => x + 1) 2 id id [1, 2, 3] =
      directRun (fun x : Nat => x + 1) [1, 2, 3] :=
  C3_buffered_matches_direct (fun x => x + 1) 2 id id
    (fun _ => rfl) (fun _ => rfl) [1, 2, 3]

/-- Witness for C4 on a three-element run with chunk capacity 2:
the chunks reassemble the run and the final chunk holds the single
leftover element. -/
theorem C4_chunk_sizing_witness :
    ((chunked 2 [(5 : Int), 7, 9]).flatten = [5, 7, 9]) ∧
    ((chunked 2 [(5 : Int), 7, 9]).getLast?.map List.length = some 1) :=
  ⟨(C4_chunk_sizing 2 [5, 7, 9] (by decide)).2.1,
   (C4_chunk_sizing 2 [5, 7, 9] (by decide)).2.2.2 (by decide)⟩

/-- Modelled from the spec: the chunk dispatch loop with the
`UFUNC_CHECK_ERROR` poll after each chunk (the macro in the source
header exits via `goto fail` when `NpyUFunc_checkfperr` reports a
raise-mode error).  `innerLoop` computes one chunk's outputs, which
are flushed before the check; `raisesOn` abstracts the raise-mode
check for the chunk.  Returns the flushed outputs and whether the
invocation aborted. -/
def dispatchChunks (innerLoop : List α → List β) (raisesOn : List α → Bool) :
    List (List α) → List β × Bool
  | [] => ([], false)
  | ch :: rest =>
    if raisesOn ch then (innerLoop ch, true)
    else ((innerLoop ch ++ (dispatchChunks innerLoop raisesOn rest).1),
          (dispatchChunks innerLoop raisesOn rest).2)

/-- C6: when a chunk's error check fires, the dispatch loop stops at
that chunk boundary: the flushed output is exactly the outputs of the
chunks up to and including the failing one (all earlier chunks having
passed their checks), so previously flushed output is kept unchanged;
when no check fires, all chunks are flushed. -/
theorem C6_abort_at_chunk_boundary (f : List α → List β)
    (raisesOn : List α → Bool) (chunks : List (List α)) :
    ((dispatchChunks f raisesOn chunks).2 = true →
      ∃ k : Nat, ∃ ch, chunks[k]? = some ch ∧ raisesOn ch = true ∧
        (∀ j : Nat, j < k → ∀ d, chunks[j]? = some d → raisesOn d = false) ∧
        (dispatchChunks f raisesOn chunks).1 =
          ((chunks.take (k + 1)).map f).flatten) ∧
    ((dispatchChunks f raisesOn chunks).2 = false →
      (∀ ch ∈ chunks, raisesOn ch = false) ∧
      (dispatchChunks f raisesOn chunks).1 = (chunks.map f).flatten) := by
  induction chunks with
  | nil =>
    simp only [dispatchChunks]
    constructor
    · intro h
      exact absurd h (by simp)
    · intro _
      exact ⟨by simp, by simp⟩
  | cons ch rest ih =>
    simp only [dispatchChunks]
    by_cases hr : raisesOn ch = true
    · rw [if_pos hr]
      constructor
      · intro _
        refine ⟨0, ch, by simp, hr, fun j hj => absurd hj (Nat.not_lt_zero j), ?_⟩
        simp
      · intro h
        exact absurd h (by simp)
    · rw [if_neg hr]
      constructor
      · intro h
        obtain ⟨k, ch', hk, hr', hfirst, hout⟩ := ih.1 h
        refine ⟨k + 1, ch', by simpa using hk, hr', ?_, ?_⟩
        · intro j hj d hd
          cases j with
          | zero =>
            rw [List.getElem?_cons_zero] at hd
            rw [← Option.some_inj.mp hd]
            exact Bool.eq_false_iff.mpr hr
          | succ j' =>
            exact hfirst j' (by omega) d (by simpa using hd)
        · rw [hout, List.take_succ_cons, List.map_cons, List.flatten_cons]
      · intro h
        obtain ⟨hall, hout⟩ := ih.2 h
        refine ⟨?_, ?_⟩
        · intro d hd
          rcases List.mem_cons.mp hd with rfl | hd'
          · exact Bool.eq_false_iff.mpr hr
          · exact hall d hd'
        · rw [hout, List.map_cons, List.flatten_cons]

/-- Witness for C6: three chunks, the second raises; the flushed
output is exactly the first two chunks' outputs. -/
theorem C6_abort_at_chunk_boundary_witness :
    ∃ k : Nat, ∃ ch, ([[1], [0], [5]] : List (List Nat))[k]? = some ch ∧
      (fun c0 : List Nat => c0.contains 0) ch = true ∧
      (∀ j : Nat, j < k → ∀ d, ([[1], [0], [5]] : List (List Nat))[j]? = some d →
        (fun c0 : List Nat => c0.contains 0) d = false) ∧
      (dispatchChunks (fun c0 => c0.map (· + 1))
          (fun c0 : List Nat => c0.contains 0) [[1], [0], [5]]).1 =
        ((([[1], [0], [5]] : List (List Nat)).take (k + 1)).map
          (fun c0 => c0.map (· + 1))).flatten :=
  (C6_abort_at_chunk_boundary (fun c0 => c0.map (· + 1))
    (fun c0 : List Nat => c0.contains 0) [[1], [0], [5]]).1 (by decide)

/-! ### FP Status and Error Policy

The error-mode values, per-category masks and shifts, the FPE status
bits, and the default user error mode are taken verbatim from the
source header (`UFUNC_ERR_*`, `UFUNC_MASK_*`, `UFUNC_SHIFT_*`,
`UFUNC_FPE_*`, `UFUNC_ERR_DEFAULT2`).  Each category occupies the
three bits `[shift, shift+3)` of the error mask: the mask constants
are `2 ^ (shift + 3) - 1`, so `(errmask & MASK) >> SHIFT` extracts one
category's mode. -/

def UFUNC_ERR_IGNORE : Nat := 0
def UFUNC_ERR_WARN : Nat := 1
def UFUNC_ERR_RAISE : Nat := 2
def UFUNC_ERR_CALL : Nat := 3
def UFUNC_ERR_PRINT : Nat := 4
def UFUNC_ERR_LOG : Nat := 5

def UFUNC_MASK_DIVIDEBYZERO : Nat := 0x07
def UFUNC_MASK_OVERFLOW : Nat := 0x3f
def UFUNC_MASK_UNDERFLOW : Nat := 0x1ff
def UFUNC_MASK_INVALID : Nat := 0xfff

def UFUNC_SHIFT_DIVIDEBYZERO : Nat := 0
def UFUNC_SHIFT_OVERFLOW : Nat := 3
def UFUNC_SHIFT_UNDERFLOW : Nat := 6
def UFUNC_SHIFT_INVALID : Nat := 9

def UFUNC_FPE_DIVIDEBYZERO : Nat := 1
def UFUNC_FPE_OVERFLOW : Nat := 2
def UFUNC_FPE_UNDERFLOW : Nat := 4
def UFUNC_FPE_INVALID : Nat := 8

/-- Default user error mode, verbatim from the source header:
`(PRINT << SHIFT_DIVIDEBYZERO) + (PRINT << SHIFT_OVERFLOW) +
(PRINT << SHIFT_INVALID)`; no term for underflow. -/
def UFUNC_ERR_DEFAULT2 : Nat :=
  (UFUNC_ERR_PRINT <<< UFUNC_SHIFT_DIVIDEBYZERO) +
  (UFUNC_ERR_PRINT <<< UFUNC_SHIFT_OVERFLOW) +
  (UFUNC_ERR_PRINT <<< UFUNC_SHIFT_INVALID)

/-- The four floating-point exception categories tracked by the
engine. -/
inductive FpCategory where
  | dividebyzero
  | overflow
  | underflow
  | invalid
deriving DecidableEq

/-- The source's per-category error-mode mask. -/
def maskOf : FpCategory → Nat
  | .dividebyzero => UFUNC_MASK_DIVIDEBYZERO
  | .overflow => UFUNC_MASK_OVERFLOW
  | .underflow => UFUNC_MASK_UNDERFLOW
  | .invalid => UFUNC_MASK_INVALID

/-- The source's per-category error-mode shift. -/
def shiftOf : FpCategory → Nat
  | .dividebyzero => UFUNC_SHIFT_DIVIDEBYZERO
  | .overflow => UFUNC_SHIFT_OVERFLOW
  | .underflow => UFUNC_SHIFT_UNDERFLOW
  | .invalid => UFUNC_SHIFT_INVALID

/-- The source's per-category floating-point status bit
(`UFUNC_CHECK_STATUS` reports the sum of the set categories). -/
def fpeOf : FpCategory → Nat
  | .dividebyzero => UFUNC_FPE_DIVIDEBYZERO
  | .overflow => UFUNC_FPE_OVERFLOW
  | .underflow => UFUNC_FPE_UNDERFLOW
  | .invalid => UFUNC_FPE_INVALID

/-- Extraction of one category's error mode from the packed error
mask, using the source's masks and shifts:
`(errmask & UFUNC_MASK_C) >> UFUNC_SHIFT_C`. -/
def errMode (errmask : Nat) (cat : FpCategory) : Nat :=
  (errmask &&& maskOf cat) >>> shiftOf cat

/-- An error mask packing one 3-bit mode per category at the source's
shifts, as the interface layer builds it. -/
def composeErrMask (d o u i : Nat) : Nat :=
  (d <<< UFUNC_SHIFT_DIVIDEBYZERO) + (o <<< UFUNC_SHIFT_OVERFLOW) +
  (u <<< UFUNC_SHIFT_UNDERFLOW) + (i <<< UFUNC_SHIFT_INVALID)

/-- The mode requested for one category, by name. -/
def modeSel (d o u i : Nat) : FpCategory → Nat
  | .dividebyzero => d
  | .overflow => o
  | .underflow => u
  | .invalid => i

/-- Modelled from the spec: the raise decision of
`NpyUFunc_checkfperr` (declared in the source header, body absent):
a category triggers an `ArithmeticError` when its status bit is set
in the polled fp status and its extracted error mode is
`UFUNC_ERR_RAISE`. -/
def raisesArithmeticError (errmask fpstatus : Nat) (cat : FpCategory) : Bool :=
  ((fpstatus &&& fpeOf cat) != 0) && (errMode errmask cat == UFUNC_ERR_RAISE)

theorem errMode_composeErrMask (d o u i : Nat)
    (hd : d < 8) (ho : o < 8) (hu : u < 8) (hi : i < 8) (cat : FpCategory) :
    errMode (composeErrMask d o u i) cat = modeSel d o u i cat := by
  have hm : composeErrMask d o u i = d + o * 8 + u * 64 + i * 512 := by
    simp [composeErrMask, Nat.shiftLeft_eq, UFUNC_SHIFT_DIVIDEBYZERO,
      UFUNC_SHIFT_OVERFLOW, UFUNC_SHIFT_UNDERFLOW, UFUNC_SHIFT_INVALID]
  cases cat with
  | dividebyzero =>
    show (composeErrMask d o u i &&& UFUNC_MASK_DIVIDEBYZERO) >>>
      UFUNC_SHIFT_DIVIDEBYZERO = d
    rw [hm, show UFUNC_MASK_DIVIDEBYZERO = 2 ^ 3 - 1 from rfl,
      Nat.and_pow_two_sub_one_eq_mod, Nat.shiftRight_eq_div_pow]
    have h8 : (2 : Nat) ^ 3 = 8 := by norm_num
    rw [h8, show UFUNC_SHIFT_DIVIDEBYZERO = 0 from rfl]
    omega
  | overflow =>
    show (composeErrMask d o u i &&& UFUNC_MASK_OVERFLOW) >>>
      UFUNC_SHIFT_OVERFLOW = o
    rw [hm, show UFUNC_MASK_OVERFLOW = 2 ^ 6 - 1 from rfl,
      Nat.and_pow_two_sub_one_eq_mod, Nat.shiftRight_eq_div_pow]
    have h64 : (2 : Nat) ^ 6 = 64 := by norm_num
    have h8 : (2 : Nat) ^ UFUNC_SHIFT_OVERFLOW = 8 := by norm_num [UFUNC_SHIFT_OVERFLOW]
    rw [h64, h8]
    omega
  | underflow =>
    show (composeErrMask d o u i &&& UFUNC_MASK_UNDERFLOW) >>>
      UFUNC_SHIFT_UNDERFLOW = u
    rw [hm, show UFUNC_MASK_UNDERFLOW = 2 ^ 9 - 1 from rfl,
      Nat.and_pow_two_sub_one_eq_mod, Nat.shiftRight_eq_div_pow]
    have h512 : (2 : Nat) ^ 9 = 512 := by norm_num
    have h64 : (2 : Nat) ^ UFUNC_SHIFT_UNDERFLOW = 64 := by norm_num [UFUNC_SHIFT_UNDERFLOW]
    rw [h512, h64]
    omega
  | invalid =>
    show (composeErrMask d o u i &&& UFUNC_MASK_INVALID) >>>
      UFUNC_SHIFT_INVALID = i
    rw [hm, show UFUNC_MASK_INVALID = 2 ^ 12 - 1 from rfl,
      Nat.and_pow_two_sub_one_eq_mod, Nat.shiftRight_eq_div_pow]
    have h4096 : (2 : Nat) ^ 12 = 4096 := by norm_num
    have h512 : (2 : Nat) ^ UFUNC_SHIFT_INVALID = 512 := by norm_num [UFUNC_SHIFT_INVALID]
    rw [h4096, h512]
    omega

/-- C5: in an error mask packing one 3-bit mode per category at the
source's shifts, each category's extracted mode is exactly the mode
requested for that category, independent of the other three
categories' modes; and a category triggers an `ArithmeticError`
exactly when its floating-point status bit is set and its own mode is
`UFUNC_ERR_RAISE`. -/
theorem C5_fp_error_independent (d o u i fpstatus : Nat)
    (hd : d < 8) (ho : o < 8) (hu : u < 8) (hi : i < 8) :
    (∀ cat, errMode (composeErrMask d o u i) cat = modeSel d o u i cat) ∧
    (∀ cat, raisesArithmeticError (composeErrMask d o u i) fpstatus cat = true ↔
      ((fpstatus &&& fpeOf cat) ≠ 0 ∧ modeSel d o u i cat = UFUNC_ERR_RAISE)) := by
  have hmode := errMode_composeErrMask d o u i hd ho hu hi
  refine ⟨hmode, ?_⟩
  intro cat
  unfold raisesArithmeticError
  rw [hmode cat]
  simp [Bool.and_eq_true, bne_iff_ne, beq_iff_eq]

/-- Witness for C5 with divide-by-zero set to raise (2), overflow to
print (4), underflow to ignore (0), invalid to warn (1), and a
divide-by-zero fp status. -/
theorem C5_fp_error_independent_witness :
    errMode (composeErrMask 2 4 0 1) FpCategory.overflow =
      modeSel 2 4 0 1 FpCategory.overflow ∧
    (raisesArithmeticError (composeErrMask 2 4 0 1) 1 FpCategory.dividebyzero = true ↔
      ((1 &&& fpeOf FpCategory.dividebyzero) ≠ 0 ∧
        modeSel 2 4 0 1 FpCategory.dividebyzero = UFUNC_ERR_RAISE)) :=
  ⟨(C5_fp_error_independent 2 4 0 1 1 (by decide) (by decide) (by decide)
      (by decide)).1 FpCategory.overflow,
   (C5_fp_error_independent 2 4 0 1 1 (by decide) (by decide) (by decide)
      (by decide)).2 FpCategory.dividebyzero⟩

/-- C10: the default user error mode `UFUNC_ERR_DEFAULT2` assigns the
print mode to divide-by-zero, overflow and invalid, but leaves
underflow at ignore (0), so an underflow condition never triggers an
`ArithmeticError` (nor any other action) under the default settings. -/
theorem C10_default2_underflow_ignored :
    errMode UFUNC_ERR_DEFAULT2 FpCategory.dividebyzero = UFUNC_ERR_PRINT ∧
    errMode UFUNC_ERR_DEFAULT2 FpCategory.overflow = UFUNC_ERR_PRINT ∧
    errMode UFUNC_ERR_DEFAULT2 FpCategory.invalid = UFUNC_ERR_PRINT ∧
    errMode UFUNC_ERR_DEFAULT2 FpCategory.underflow = UFUNC_ERR_IGNORE ∧
    ∀ fpstatus : Nat,
      raisesArithmeticError UFUNC_ERR_DEFAULT2 fpstatus FpCategory.underflow = false := by
  refine ⟨by decide, by decide, by decide, by decide, ?_⟩
  intro fpstatus
  unfold raisesArithmeticError
  have h : errMode UFUNC_ERR_DEFAULT2 FpCategory.underflow = UFUNC_ERR_IGNORE := by decide
  rw [h]
  simp [UFUNC_ERR_IGNORE, UFUNC_ERR_RAISE]

/-! ### Reduce/Accumulate Engine

Modelled from the spec (§4.6): the `NpyUFuncReduceObject` and the
loop-method constants `ZERO_EL_REDUCELOOP` / `ONE_EL_REDUCELOOP` /
`NOBUFFER_REDUCELOOP` / `BUFFER_REDUCELOOP` come from the source
header; the reduce state machine itself is absent from the visible
source.  The list argument holds the elements along the reduction
axis in the row-major visit order. -/

def NO_UFUNCLOOP : Nat := 0
def ZERO_EL_REDUCELOOP : Nat := 0
def ONE_UFUNCLOOP : Nat := 1
def ONE_EL_REDUCELOOP : Nat := 1
def NOBUFFER_UFUNCLOOP : Nat := 2
def NOBUFFER_REDUCELOOP : Nat := 2
def BUFFER_UFUNCLOOP : Nat := 3
def BUFFER_REDUCELOOP : Nat := 3
def SIGNATURE_NOBUFFER_UFUNCLOOP : Nat := 4

/-- Modelled from the spec: selection of the reduce loop method from
the axis length and the presence of a declared identity: a zero-length
axis needs the identity (`ZERO_EL_REDUCELOOP`) and is a `ValueError`
without one; a one-element axis is `ONE_EL_REDUCELOOP`. -/
def selectReduceMeth (axisLen : Nat) (hasIdentity : Bool) : Except Unit Nat :=
  if axisLen = 0 then
    if hasIdentity then Except.ok ZERO_EL_REDUCELOOP else Except.error ()
  else if axisLen = 1 then Except.ok ONE_EL_REDUCELOOP
  else Except.ok NOBUFFER_REDUCELOOP

/-- Modelled from the spec: reduce along one axis, seeding the
accumulator from the declared identity for an empty axis (a
`ValueError` if none is declared) or from the first element, then
folding the remaining elements in visit order. -/
def reduceAxis (f : α → α → α) (identity : Option α) (xs : List α) :
    Except Unit α :=
  match xs, identity with
  | [], some e => Except.ok e
  | [], none => Except.error ()
  | x :: rest, _ => Except.ok (rest.foldl f x)

/-- Modelled from the spec: accumulate along one axis: at each output
index the running value of the fold over the elements seen so far, in
visit order. -/
def accumulateAxis (f : α → α → α) (xs : List α) : List α :=
  match xs with
  | [] => []
  | x :: rest => List.scanl f x rest

/-- C7: reduce over a zero-length axis with no declared identity fails
with a `ValueError` (`ZERO_EL_REDUCELOOP` requires the identity), and
reduce over a one-element axis returns that element unchanged
(`ONE_EL_REDUCELOOP`), for any operation and any declared identity. -/
theorem C7_reduce_empty_and_single (f : α → α → α) (identity : Option α)
    (x : α) :
    selectReduceMeth 0 false = Except.error () ∧
    reduceAxis f none ([] : List α) = Except.error () ∧
    selectReduceMeth 1 true = Except.ok ONE_EL_REDUCELOOP ∧
    selectReduceMeth 1 false = Except.ok ONE_EL_REDUCELOOP ∧
    reduceAxis f identity [x] = Except.ok x := by
  refine ⟨rfl, rfl, rfl, rfl, ?_⟩
  cases identity with
  | none => rfl
  | some e => rfl

theorem scanl_getElem? (f : β → α → β) (b : β) (l : List α) (k : Nat)
    (hk : k ≤ l.length) :
    (List.scanl f b l)[k]? = some ((l.take k).foldl f b) := by
  induction l generalizing b k with
  | nil =>
    have hk0 : k = 0 := Nat.le_zero.mp hk
    subst hk0
    simp [List.scanl]
  | cons a l ih =>
    cases k with
    | zero => simp [List.scanl]
    | succ k =>
      rw [List.scanl_cons, List.singleton_append, List.getElem?_cons_succ,
        ih (f b a) k (by simpa using hk)]
      simp

/-- C9: for an associative operation, accumulate along an axis has the
same length as the input and its value at every output index `k` is
the reduce of the prefix of the first `k + 1` elements in visit
order. -/
theorem C9_accumulate_matches_reduce (f : α → α → α)
    (hassoc : ∀ a b c0, f (f a b) c0 = f a (f b c0)) (xs : List α)
    (k : Nat) (hk : k < xs.length) :
    (accumulateAxis f xs).length = xs.length ∧
    (accumulateAxis f xs)[k]? = (reduceAxis f none (xs.take (k + 1))).toOption := by
  cases xs with
  | nil => exact absurd hk (by simp)
  | cons x rest =>
    constructor
    · simp [accumulateAxis, List.length_scanl]
    · show (List.scanl f x rest)[k]? = _
      rw [scanl_getElem? f x rest k (by simpa using Nat.lt_succ_iff.mp (by simpa using hk)),
        List.take_succ_cons]
      rfl

/-- Witness for C9 with addition on a three-element axis at output
index 1. -/
theorem C9_accumulate_matches_reduce_witness :
    (accumulateAxis (· + ·) [1, 2, 3]).length = ([1, 2, 3] : List Nat).length ∧
    (accumulateAxis (· + ·) [1, 2, 3])[1]? =
      (reduceAxis (· + ·) none (([1, 2, 3] : List Nat).take 2)).toOption :=
  C9_accumulate_matches_reduce (· + ·) Nat.add_assoc [1, 2, 3] 1 (by decide)

/-! ### Core-Dimension Binder

Modelled from the spec (§4.2): the `NpyUFuncObject` stores the core
signature layout (`core_num_dims`, `core_dim_ixs`, `core_offsets`,
`core_num_dim_ix`) and the `NpyUFuncLoopObject` stores the resolved
`core_dim_sizes`; the binding pass itself is absent from the visible
source.  The declarations are the flattened sequence of (dimension
name index, extent) pairs over all operands in declaration order,
mirroring the flattened `core_dim_ixs`; the table is the name→extent
map backing `core_dim_sizes`. -/

/-- Modelled from the spec: one step of building the name→extent
table: a first occurrence of a name records its extent, a repeated
occurrence must match the recorded extent or the binding fails with a
`CoreDimensionMismatch` (`none`). -/
def bindCore (table : List (Nat × Nat)) :
    List (Nat × Nat) → Option (List (Nat × Nat))
  | [] => some table
  | (nm, ext) :: rest =>
    match table.lookup nm with
    | none => bindCore (table ++ [(nm, ext)]) rest
    | some e => if e = ext then bindCore table rest else none

/-- Modelled from the spec: bind all core-dimension declarations,
starting from an empty table. -/
def bindCoreDims (decls : List (Nat × Nat)) : Option (List (Nat × Nat)) :=
  bindCore [] decls

theorem lookup_append (nm : Nat) (l1 l2 : List (Nat × Nat)) :
    (l1 ++ l2).lookup nm = (l1.lookup nm).or (l2.lookup nm) := by
  induction l1 with
  | nil => simp
  | cons p l ih =>
    obtain ⟨a, b⟩ := p
    rw [List.cons_append]
    cases hab : (nm == a) with
    | true => simp [List.lookup, hab]
    | false => simp [List.lookup, hab, ih]

theorem lookup_cons_ne (nm a b : Nat) (l : List (Nat × Nat)) (h : nm ≠ a) :
    List.lookup nm ((a, b) :: l) = List.lookup nm l := by
  have hab : (nm == a) = false := beq_eq_false_iff_ne.mpr h
  simp [List.lookup, hab]

theorem bindCore_cons_none (table rest : List (Nat × Nat)) (nm0 ext : Nat)
    (hl : table.lookup nm0 = none) :
    bindCore table ((nm0, ext) :: rest) = bindCore (table ++ [(nm0, ext)]) rest := by
  simp [bindCore, hl]

theorem bindCore_cons_some_eq (table rest : List (Nat × Nat)) (nm0 ext : Nat)
    (hl : table.lookup nm0 = some ext) :
    bindCore table ((nm0, ext) :: rest) = bindCore table rest := by
  simp [bindCore, hl]

theorem bindCore_cons_some_ne (table rest : List (Nat × Nat)) (nm0 ext e : Nat)
    (hl : table.lookup nm0 = some e) (he : e ≠ ext) :
    bindCore table ((nm0, ext) :: rest) = none := by
  simp [bindCore, hl, he]

theorem bindCore_some_lookup (table rest t : List (Nat × Nat))
    (h : bindCore table rest = some t) :
    ∀ nm : Nat, t.lookup nm = (table ++ rest).lookup nm := by
  induction rest generalizing table with
  | nil =>
    simp only [bindCore] at h
    rw [← Option.some_inj.mp h]
    simp
  | cons q rest ih =>
    obtain ⟨nm0, ext⟩ := q
    cases hl : table.lookup nm0 with
    | none =>
      rw [bindCore_cons_none table rest nm0 ext hl] at h
      intro nm
      rw [ih (table ++ [(nm0, ext)]) h nm, List.append_assoc,
        List.singleton_append]
    | some e =>
      by_cases he : e = ext
      · subst he
        rw [bindCore_cons_some_eq table rest nm0 e hl] at h
        intro nm
        rw [ih table h nm, lookup_append, lookup_append]
        by_cases hnm : nm = nm0
        · subst hnm
          rw [hl]
          rfl
        · rw [lookup_cons_ne nm nm0 e rest hnm]
      · rw [bindCore_cons_some_ne table rest nm0 ext e hl he] at h
        exact absurd h (by simp)

theorem bindCore_none_iff (table rest : List (Nat × Nat)) :
    bindCore table rest = none ↔
      ∃ p ∈ rest, (table ++ rest).lookup p.1 ≠ some p.2 := by
  induction rest generalizing table with
  | nil =>
    simp [bindCore]
  | cons q rest ih =>
    obtain ⟨nm0, ext⟩ := q
    cases hl : table.lookup nm0 with
    | none =>
      rw [bindCore_cons_none table rest nm0 ext hl,
        ih (table ++ [(nm0, ext)]), List.append_assoc, List.singleton_append]
      constructor
      · rintro ⟨p, hp, hne⟩
        exact ⟨p, List.mem_cons_of_mem _ hp, hne⟩
      · rintro ⟨p, hp, hne⟩
        rcases List.mem_cons.mp hp with rfl | hp2
        · exfalso
          apply hne
          rw [lookup_append, hl, List.lookup_cons]
          simp
        · exact ⟨p, hp2, hne⟩
    | some e =>
      by_cases he : e = ext
      · subst he
        rw [bindCore_cons_some_eq table rest nm0 e hl, ih table]
        constructor
        · rintro ⟨p, hp, hne⟩
          refine ⟨p, List.mem_cons_of_mem _ hp, ?_⟩
          rw [lookup_append]
          rw [lookup_append] at hne
          by_cases hnm : p.1 = nm0
          · rw [hnm] at hne ⊢
            rw [hl] at hne ⊢
            simpa using hne
          · rw [lookup_cons_ne p.1 nm0 e rest hnm]
            exact hne
        · rintro ⟨p, hp, hne⟩
          rcases List.mem_cons.mp hp with rfl | hp2
          · exfalso
            apply hne
            rw [lookup_append, hl]
            rfl
          · refine ⟨p, hp2, ?_⟩
            rw [lookup_append] at hne ⊢
            by_cases hnm : p.1 = nm0
            · rw [hnm] at hne ⊢
              rw [hl] at hne ⊢
              simpa using hne
            · rw [lookup_cons_ne p.1 nm0 e rest hnm] at hne
              exact hne
      · rw [bindCore_cons_some_ne table rest nm0 ext e hl he]
        constructor
        · intro _
          refine ⟨(nm0, ext), List.mem_cons_self _ _, ?_⟩
          rw [lookup_append, hl]
          intro hcontra
          exact he (Option.some_inj.mp hcontra)
        · intro _
          rfl

/-- C8: scanning the flattened core-dimension declarations in
declaration order, binding succeeds exactly when every occurrence of a
name carries the extent fixed by that name's first occurrence
(otherwise the invocation fails with a `CoreDimensionMismatch`), and
on success the resolved table maps each name to its first-occurrence
extent. -/
theorem C8_core_dimension_binding (decls : List (Nat × Nat)) :
    (∀ t, bindCoreDims decls = some t →
      ∀ nm : Nat, t.lookup nm = decls.lookup nm) ∧
    (bindCoreDims decls = none ↔
      ∃ p ∈ decls, decls.lookup p.1 ≠ some p.2) := by
  constructor
  · intro t h nm
    have := bindCore_some_lookup [] decls t h nm
    simpa using this
  · have := bindCore_none_iff [] decls
    simpa using this

/-- Witness for C8 on declarations where name 0 appears twice with the
matching extent 2: the resolved table maps name 0 to the
first-occurrence extent. -/
theorem C8_core_dimension_binding_witness :
    List.lookup 0 [(0, 2), (1, 3)] = List.lookup 0 [(0, 2), (1, 3), (0, 2)] :=
  (C8_core_dimension_binding [(0, 2), (1, 3), (0, 2)]).1 [(0, 2), (1, 3)] rfl 0

end NpyUFunc
